import Mathlib

/-!
Verification of the executable acquisition and resolution engine of the
`setup-nucel` GitHub action (`src/run.ts`).

The TypeScript source is shallowly embedded: the filesystem visible to the
resolver is a finite tree of named entries, process executions are oracles
supplied by an `Env` record, and each effectful source function becomes a
pure Lean function from that environment.  The embedded definitions keep the
source's names (`run`, `getPlatformInfo`, `findBinaryInDir`,
`findBinaryRecursive`, `findBinaryInCache`, `fileExists`,
`verifyInstallation`, `getDownloadUrl`, `saveToCache`, `setOutputs`).
The repository also contains a second variant of `run.ts` (an unnamed source
file) whose resolver performs a fuzzy match on the tool's short name; it is
embedded separately as `findBinaryInDirFuzzy` / `runFuzzy`.
-/

namespace SetupNucel

/-- A node of the filesystem tree seen by the resolver: a regular file
(with its execute-permission bit) or a directory with its children in
`readdir` order. -/
inductive Entry : Type where
  | file (name : String) (exec : Bool)
  | dir (name : String) (entries : List Entry)

/-- The name of a filesystem entry. -/
def entryName : Entry → String
  | .file n _ => n
  | .dir n _ => n

/-- Look an entry up by name among the children of a directory
(first match in `readdir` order). -/
def lookupEntry : List Entry → String → Option Entry
  | [], _ => none
  | e :: rest, n => if entryName e = n then some e else lookupEntry rest n

/-- Embeds `fileExists` from `src/run.ts`: `fs.access(p, F_OK | X_OK)`
succeeds, i.e. the path names an existing node and, for a regular file,
its execute bit is set (directories are traversable, so `X_OK` succeeds
on them).  The path is a list of segments relative to the root. -/
def fileExists : List Entry → List String → Bool
  | _, [] => true
  | es, n :: rest =>
    match lookupEntry es n with
    | none => false
    | some (.file _ ex) => if rest = [] then ex else false
    | some (.dir _ sub) => if rest = [] then true else fileExists sub rest

/-- Embeds `findBinaryRecursive` from `src/run.ts`: depth-first descent in
`readdir` order, returning the path of the first regular file whose name
equals `binaryName` exactly.  Errors while reading a directory are swallowed
in the source; the embedding is total. -/
def findBinaryRecursive : List Entry → List String → String → Option (List String)
  | [], _, _ => none
  | .file n _ :: rest, pre, b =>
      if n = b then some (pre ++ [n]) else findBinaryRecursive rest pre b
  | .dir n sub :: rest, pre, b =>
      match findBinaryRecursive sub (pre ++ [n]) b with
      | some r => some r
      | none => findBinaryRecursive rest pre b

/-- Whether a regular file named `b` occurs anywhere in the tree
(the semantic "a candidate exists" predicate for the recursive descent). -/
def treeHasFile : List Entry → String → Bool
  | [], _ => false
  | .file n _ :: rest, b => (n = b) || treeHasFile rest b
  | .dir _ sub :: rest, b => treeHasFile sub b || treeHasFile rest b

/-- The conventional subdirectories probed by `findBinaryInDir`
(`commonDirs` in `src/run.ts`). -/
def commonDirs : List String := ["bin", "cli", "nucel", "nucel-cli"]

/-- The loop over `commonDirs` inside `findBinaryInDir`: first subdirectory
whose copy of the binary passes `fileExists` wins. -/
def findInCommonDirs (root : List Entry) (b : String) : List String → Option (List String)
  | [] => none
  | d :: rest =>
      if fileExists root [d, b] then some [d, b] else findInCommonDirs root b rest

/-- Embeds `findBinaryInDir` from `src/run.ts`: (1) the exact name directly
under the root, (2) the name under the conventional subdirectories, (3) full
recursive descent; `none` when nothing matches (the source returns `null`
and never throws — its `catch` only covers errors its own helpers already
swallow). -/
def findBinaryInDir (root : List Entry) (b : String) : Option (List String) :=
  if fileExists root [b] then some [b]
  else
    match findInCommonDirs root b commonDirs with
    | some p => some p
    | none => findBinaryRecursive root [] b

theorem findBinaryRecursive_eq_none_of_not_treeHasFile (l : List Entry)
    (pre : List String) (b : String) (h : treeHasFile l b = false) :
    findBinaryRecursive l pre b = none := by
  induction l, pre, b using findBinaryRecursive.induct with
  | case1 x y => simp [findBinaryRecursive]
  | case2 e rest pre b => simp [treeHasFile] at h
  | case3 n e rest pre b hne ih =>
      simp [treeHasFile] at h
      simp [findBinaryRecursive, hne, ih h.2]
  | case4 n sub rest pre b r hr ih =>
      simp [treeHasFile] at h
      rw [ih h.1] at hr
      exact absurd hr (by simp)
  | case5 n sub rest pre b hr ih1 ih2 =>
      simp [treeHasFile] at h
      simp [findBinaryRecursive, hr, ih2 h.2]

theorem findBinaryRecursive_isSome_of_treeHasFile (l : List Entry)
    (pre : List String) (b : String) (h : treeHasFile l b = true) :
    (findBinaryRecursive l pre b).isSome = true := by
  induction l, pre, b using findBinaryRecursive.induct with
  | case1 x y => simp [treeHasFile] at h
  | case2 e rest pre b => simp [findBinaryRecursive]
  | case3 n e rest pre b hne ih =>
      simp [treeHasFile, hne] at h
      simp [findBinaryRecursive, hne, ih h]
  | case4 n sub rest pre b r hr ih =>
      simp [findBinaryRecursive, hr]
  | case5 n sub rest pre b hr ih1 ih2 =>
      simp [treeHasFile] at h
      rcases h with h | h
      · have := ih1 h
        rw [hr] at this
        simp at this
      · simp [findBinaryRecursive, hr, ih2 h]

/-- Embeds the `PlatformInfo` type of `src/run.ts`.  `ext` and `binaryName`
are optional because for an operating system outside the `platformMap` the
source's object spread of `undefined` leaves both fields `undefined`. -/
structure PlatformInfo where
  platform : String
  arch : String
  ext : Option String
  binaryName : Option String
deriving Repr, DecidableEq

/-- The `platformMap` literal of `getPlatformInfo` in `src/run.ts`:
archive extension and executable name per supported operating system. -/
def platformMap (platform : String) : Option (String × String) :=
  if platform = "linux" then some (".tar.gz", "nucel")
  else if platform = "darwin" then some (".tar.gz", "nucel")
  else if platform = "win32" then some (".zip", "nucel.exe")
  else none

/-- Embeds `getPlatformInfo` from `src/run.ts`.  For an operating system
with no entry in `platformMap`, `{...platformMap[platform]}` spreads
`undefined`, which is a no-op in JavaScript: the function still returns,
with `ext` and `binaryName` absent, rather than throwing. -/
def getPlatformInfo (platform arch : String) : PlatformInfo :=
  match platformMap platform with
  | some (e, b) => ⟨platform, arch, some e, some b⟩
  | none => ⟨platform, arch, none, none⟩

/-- JavaScript template-literal rendering of a possibly-`undefined` string:
`undefined` interpolates as the literal text "undefined". -/
def jsRender : Option String → String
  | some s => s
  | none => "undefined"

/-- Embeds `getDownloadUrl` from `src/run.ts`: the pinned release tag
`cli-v0.1.9` stands in for `"latest"`; otherwise the tag is
`cli-v<version>`. -/
def getDownloadUrl (version : String) (p : PlatformInfo) : String :=
  let baseUrl := "https://github.com/nucel-cloud/nucel/releases/download"
  let versionTag := if version = "latest" then "cli-v0.1.9" else "cli-v" ++ version
  let fileName := "nucel-cli-" ++ p.platform ++ "-" ++ p.arch ++ jsRender p.ext
  baseUrl ++ "/" ++ versionTag ++ "/" ++ fileName

/-- Embeds the cache key computed in `run` (`src/run.ts`). -/
def cacheKey (version os arch : String) : String :=
  "nucel-cli-" ++ version ++ "-" ++ os ++ "-" ++ arch

/-! ### Version validation

`run` tests the version input against the JavaScript regular expression
`/^\d+\.\d+\.\d+(-[\w\.\-]+)?$/`.  Because a digit run is always followed
by a character that is not a digit (`.`, `-`, or end), and the pre-release
class is followed only by the end anchor, greedy maximal munch coincides
with the regex's backtracking semantics, so the matcher below consumes
maximal runs. -/

/-- JavaScript `\w`: ASCII letters, digits and underscore. -/
def isWordChar (c : Char) : Bool := c.isAlpha || c.isDigit || c = '_'

/-- The character class `[\w\.\-]` of the pre-release group. -/
def isPreChar (c : Char) : Bool := isWordChar c || c = '.' || c = '-'

/-- Consume one or more leading characters satisfying `p` (maximal munch);
`none` if the first character does not satisfy `p`. -/
def munch1 (p : Char → Bool) : List Char → Option (List Char)
  | [] => none
  | c :: cs => if p c then some (cs.dropWhile p) else none

/-- Consume a literal dot. -/
def expectDot : List Char → Option (List Char)
  | [] => none
  | c :: r => if c = '.' then some r else none

/-- The optional `(-[\w\.\-]+)?$` tail of the version regex. -/
def semverTail : List Char → Bool
  | [] => true
  | c :: rest =>
      if c = '-' then
        match munch1 isPreChar rest with
        | some [] => true
        | _ => false
      else false

/-- Embeds the test of `/^\d+\.\d+\.\d+(-[\w\.\-]+)?$/` from `run`
(`src/run.ts`). -/
def matchesSemver (s : String) : Bool :=
  match munch1 Char.isDigit s.data with
  | none => false
  | some l1 =>
    match expectDot l1 with
    | none => false
    | some r1 =>
      match munch1 Char.isDigit r1 with
      | none => false
      | some l2 =>
        match expectDot l2 with
        | none => false
        | some r2 =>
          match munch1 Char.isDigit r2 with
          | none => false
          | some l3 => semverTail l3

/-- Formalization of the specification's wording: a string of the shape
`MAJOR.MINOR.PATCH` with an optional `-PRERELEASE` suffix, each version
component a nonempty digit run and the pre-release a nonempty run over
`[\w\.\-]`.  Stated independently of the matcher, to be compared with it. -/
def SemverShape (s : String) : Prop :=
  ∃ maj minr pat : List Char,
    maj ≠ [] ∧ (∀ x ∈ maj, x.isDigit = true) ∧
    minr ≠ [] ∧ (∀ x ∈ minr, x.isDigit = true) ∧
    pat ≠ [] ∧ (∀ x ∈ pat, x.isDigit = true) ∧
    (s.data = maj ++ '.' :: minr ++ '.' :: pat ∨
      ∃ pre : List Char, pre ≠ [] ∧ (∀ x ∈ pre, isPreChar x = true) ∧
        s.data = maj ++ '.' :: minr ++ '.' :: pat ++ '-' :: pre)

theorem dropWhile_dropWhile_self (p : Char → Bool) (l : List Char) :
    (l.dropWhile p).dropWhile p = l.dropWhile p := by
  induction l with
  | nil => rfl
  | cons c cs ih =>
      by_cases h : p c
      · simp [List.dropWhile_cons, h, ih]
      · simp [List.dropWhile_cons, h]

theorem munch1_eq_some_iff (p : Char → Bool) (l r : List Char) :
    munch1 p l = some r ↔
      ∃ t, t ≠ [] ∧ (∀ x ∈ t, p x = true) ∧ l = t ++ r ∧ r.dropWhile p = r := by
  constructor
  · intro h
    cases l with
    | nil => simp [munch1] at h
    | cons c cs =>
      by_cases hc : p c
      · simp only [munch1, hc, if_pos] at h
        have hr := Option.some.inj h
        subst hr
        refine ⟨c :: cs.takeWhile p, by simp, ?_, ?_, ?_⟩
        · intro x hx
          rcases List.mem_cons.mp hx with rfl | hx
          · exact hc
          · exact List.mem_takeWhile_imp hx
        · simp [List.takeWhile_append_dropWhile]
        · exact dropWhile_dropWhile_self p cs
      · simp [munch1, hc] at h
  · rintro ⟨t, ht, hall, rfl, hr⟩
    cases t with
    | nil => exact absurd rfl ht
    | cons c ts =>
      have hc : p c = true := hall c (by simp)
      have hts : ts.dropWhile p = [] :=
        List.dropWhile_eq_nil_iff.mpr (fun x hx => hall x (by simp [hx]))
      simp only [List.cons_append, munch1, hc, if_pos]
      rw [List.dropWhile_append, hts]
      simp [hr]

theorem matchesSemver_iff_SemverShape (s : String) :
    matchesSemver s = true ↔ SemverShape s := by
  constructor
  · intro h
    unfold matchesSemver at h
    cases h1 : munch1 Char.isDigit s.data with
    | none => rw [h1] at h; simp at h
    | some l1 =>
      rw [h1] at h
      cases l1 with
      | nil => simp [expectDot] at h
      | cons c1 r1 =>
        by_cases hc1 : c1 = '.'
        · subst hc1
          simp only [expectDot, if_pos] at h
          cases h2 : munch1 Char.isDigit r1 with
          | none => rw [h2] at h; simp at h
          | some l2 =>
            rw [h2] at h
            cases l2 with
            | nil => simp [expectDot] at h
            | cons c2 r2 =>
              by_cases hc2 : c2 = '.'
              · subst hc2
                simp only [expectDot, if_pos] at h
                cases h3 : munch1 Char.isDigit r2 with
                | none => rw [h3] at h; simp at h
                | some l3 =>
                  rw [h3] at h
                  obtain ⟨maj, hmaj, hmajall, he1, -⟩ :=
                    (munch1_eq_some_iff _ _ _).mp h1
                  obtain ⟨minr, hminr, hminrall, he2, -⟩ :=
                    (munch1_eq_some_iff _ _ _).mp h2
                  obtain ⟨pat, hpat, hpatall, he3, -⟩ :=
                    (munch1_eq_some_iff _ _ _).mp h3
                  cases l3 with
                  | nil =>
                      refine ⟨maj, minr, pat, hmaj, hmajall, hminr, hminrall,
                        hpat, hpatall, Or.inl ?_⟩
                      subst he3 he2
                      simp [he1]
                  | cons c3 rest =>
                      by_cases hc3 : c3 = '-'
                      · subst hc3
                        simp only [semverTail, if_pos] at h
                        cases h4 : munch1 isPreChar rest with
                        | none => rw [h4] at h; simp at h
                        | some l4 =>
                          rw [h4] at h
                          cases l4 with
                          | cons c4 r4 => simp at h
                          | nil =>
                            obtain ⟨pre, hpre, hpreall, he4, -⟩ :=
                              (munch1_eq_some_iff _ _ _).mp h4
                            refine ⟨maj, minr, pat, hmaj, hmajall, hminr,
                              hminrall, hpat, hpatall, Or.inr
                              ⟨pre, hpre, hpreall, ?_⟩⟩
                            rw [List.append_nil] at he4
                            subst he4 he3 he2
                            simp [he1]
                      · simp [semverTail, hc3] at h
              · simp [expectDot, hc2] at h
        · simp [expectDot, hc1] at h
  · rintro ⟨maj, minr, pat, hmaj, hmajall, hminr, hminrall, hpat, hpatall,
      hshape | ⟨pre, hpre, hpreall, hshape⟩⟩
    · have h1 : munch1 Char.isDigit s.data = some ('.' :: (minr ++ '.' :: pat)) := by
        apply (munch1_eq_some_iff _ _ _).mpr
        refine ⟨maj, hmaj, hmajall, by rw [hshape]; simp, by simp [List.dropWhile_cons]⟩
      have h2 : munch1 Char.isDigit (minr ++ '.' :: pat) = some ('.' :: pat) := by
        apply (munch1_eq_some_iff _ _ _).mpr
        exact ⟨minr, hminr, hminrall, rfl, by simp [List.dropWhile_cons]⟩
      have h3 : munch1 Char.isDigit pat = some [] := by
        apply (munch1_eq_some_iff _ _ _).mpr
        exact ⟨pat, hpat, hpatall, by simp, by simp⟩
      unfold matchesSemver
      rw [h1]
      simp only [expectDot, if_pos]
      rw [h2]
      simp only [expectDot, if_pos]
      rw [h3]
      rfl
    · have h1 : munch1 Char.isDigit s.data =
          some ('.' :: (minr ++ '.' :: (pat ++ '-' :: pre))) := by
        apply (munch1_eq_some_iff _ _ _).mpr
        refine ⟨maj, hmaj, hmajall, by rw [hshape]; simp, by simp [List.dropWhile_cons]⟩
      have h2 : munch1 Char.isDigit (minr ++ '.' :: (pat ++ '-' :: pre)) =
          some ('.' :: (pat ++ '-' :: pre)) := by
        apply (munch1_eq_some_iff _ _ _).mpr
        exact ⟨minr, hminr, hminrall, rfl, by simp [List.dropWhile_cons]⟩
      have h3 : munch1 Char.isDigit (pat ++ '-' :: pre) = some ('-' :: pre) := by
        apply (munch1_eq_some_iff _ _ _).mpr
        exact ⟨pat, hpat, hpatall, rfl, by simp [List.dropWhile_cons]⟩
      have h4 : munch1 isPreChar pre = some [] := by
        apply (munch1_eq_some_iff _ _ _).mpr
        exact ⟨pre, hpre, hpreall, by simp, by simp⟩
      unfold matchesSemver
      rw [h1]
      simp only [expectDot, if_pos]
      rw [h2]
      simp only [expectDot, if_pos]
      rw [h3]
      simp only [semverTail, if_pos]
      rw [h4]

/-! ### JavaScript string helpers used by `setOutputs` -/

/-- The whitespace characters trimmed by JavaScript `String.prototype.trim`
(restricted to the ASCII ones that can occur in probe output). -/
def jsIsWhitespace (c : Char) : Bool :=
  c = ' ' || c = '\t' || c = '\n' || c = '\r' || c = '\x0B' || c = '\x0C'

/-- JavaScript `s.trim()`. -/
def jsTrim (l : List Char) : List Char :=
  ((l.dropWhile jsIsWhitespace).reverse.dropWhile jsIsWhitespace).reverse

/-- JavaScript `s.split(sep)` generalized to a separator predicate: splits at
every separator character, keeping empty pieces; the result is never empty
(`"".split(' ')` is `[""]`). -/
def splitOnPred (p : Char → Bool) : List Char → List (List Char)
  | [] => [[]]
  | c :: cs =>
    if p c then [] :: splitOnPred p cs
    else
      match splitOnPred p cs with
      | t :: ts => (c :: t) :: ts
      | [] => [[c]]

/-- The token computed by `setOutputs` (`src/run.ts`):
`stdout.trim().split(' ').pop()` — the last piece after splitting the
trimmed output on the single character U+0020. -/
def jsLastSpaceToken (s : String) : String :=
  match (splitOnPred (fun c => c = ' ') (jsTrim s.data)).getLast? with
  | some t => String.mk t
  | none => ""

/-- Modelled from the spec: "parses the last whitespace-delimited token
of stdout" — the last nonempty piece after splitting on any whitespace.
Stated from the spec's words, to be compared with `jsLastSpaceToken`. -/
def lastWhitespaceToken (s : String) : String :=
  match ((splitOnPred jsIsWhitespace s.data).filter (fun t => t ≠ [])).getLast? with
  | some t => String.mk t
  | none => ""

/-! ### Process execution, environment and the run pipeline -/

/-- Outcome of spawning a binary with the `--version` probe: an exit with a
code and captured stdout, or a spawn failure (missing execute permission,
corrupt binary), which the source observes as a thrown exception. -/
inductive ExecOutcome where
  | exited (code : Nat) (stdout : String)
  | spawnError
deriving Repr, DecidableEq

/-- Embeds `verifyInstallation` from `src/run.ts`: runs the candidate with
`--version` (`ignoreReturnCode: true`) and returns `exitCode === 0`; the
`catch` collapses a spawn failure to `false`. -/
def verifyInstallation : ExecOutcome → Bool
  | .exited code _ => code == 0
  | .spawnError => false

/-- The version string computed by `setOutputs` (`src/run.ts`): on exit 0,
`stdout.trim().split(' ').pop() || 'unknown'`; on a non-zero exit or a
thrown execution error, the sentinel `"unknown"`. -/
def extractVersionString : ExecOutcome → String
  | .spawnError => "unknown"
  | .exited code out =>
      if code = 0 then
        let tok := jsLastSpaceToken out
        if tok = "" then "unknown" else tok
      else "unknown"

/-- The two outputs of the action, `cli-version` and `cli-path`
(paths are segment lists rooted at a location marker). -/
structure Outputs where
  cliVersion : String
  cliPath : List String
deriving Repr, DecidableEq

/-- The external world of one run: cache transport, download transport,
archive extraction, and process execution, each an oracle.  A restore or
save transport failure is logged and swallowed by the source, so it is
observationally a miss and needs no separate representation. -/
structure Env where
  restoreHit : Bool
  cacheTree : List Entry
  download : String → Bool
  downloadErr : String
  extractOk : Bool
  extractErr : String
  extractTree : List Entry
  exec : List String → ExecOutcome

/-- Embeds `setOutputs` from `src/run.ts`. -/
def setOutputs (env : Env) (p : List String) : Outputs :=
  ⟨extractVersionString (env.exec p), p⟩

/-- Embeds `findBinaryInCache` from `src/run.ts`: only the exact
`platform.binaryName` directly under the staging root, gated by
`fileExists` (`F_OK | X_OK`).  When `binaryName` is absent
(unsupported OS), `path.join` throws and the `catch` yields `null`. -/
def findBinaryInCache (cacheTree : List Entry) (p : PlatformInfo) : Option (List String) :=
  match p.binaryName with
  | none => none
  | some b => if fileExists cacheTree [b] then some ["nucel-cache", b] else none

/-- Embeds `restoreFromCache` from `src/run.ts`: a hit is reported only if
the transport restored the key, the staged binary is found, and it passes
`verifyInstallation`; every other case (including transport errors) is a
miss. -/
def restoreFromCache (env : Env) (p : PlatformInfo) : Option (List String) :=
  if env.restoreHit then
    match findBinaryInCache env.cacheTree p with
    | some q => if verifyInstallation (env.exec q) then some q else none
    | none => none
  else none

/-- The stable message wrapper of `installNucelCLI`'s `catch` block;
`${error}` stringifies a JavaScript `Error` as `Error: <message>`. -/
def wrapInstall (inner : String) : String := "Failed to install Nucel CLI: " ++ inner

/-- Embeds `installNucelCLI` from `src/run.ts`: download, extract, resolve
via `findBinaryInDir`, `chmod +x` on POSIX, then verify.  Every failure —
including the verification throw, which sits inside the same `try` — is
re-wrapped by the `catch` into `Failed to install Nucel CLI: ...`. -/
def installNucelCLI (env : Env) (version : String) (p : PlatformInfo) :
    Except String (List String) :=
  if env.download (getDownloadUrl version p) = false then
    .error (wrapInstall ("Error: " ++ env.downloadErr))
  else if env.extractOk = false then
    .error (wrapInstall ("Error: " ++ env.extractErr))
  else
    match (match p.binaryName with
           | none => none
           | some b => findBinaryInDir env.extractTree b) with
    | none => .error (wrapInstall
        "Error: Nucel CLI binary not found in extracted directory: extracted")
    | some segs =>
        if verifyInstallation (env.exec ("extracted" :: segs)) then
          .ok ("extracted" :: segs)
        else
          .error (wrapInstall "Error: Nucel CLI installation verification failed")

/-- Embeds the staging effect of `saveToCache` (`src/run.ts`): the staging
directory receives one copy of the binary under its original basename
(`path.basename(nucelPath)`); `fs.copyFile` creates the copy with the
source file's mode, so its execute bit equals the source's. -/
def saveToCache (savedBase : String) (ex : Bool) : List Entry :=
  [.file savedBase ex]

/-- The fatal errors `run` can throw: a validation failure before any I/O,
or a wrapped installation failure. -/
inductive RunError where
  | inputError (msg : String)
  | installError (msg : String)
deriving Repr, DecidableEq

/-- Which observable side effects a run performed. -/
structure Effects where
  restoreInvoked : Bool
  downloadInvoked : Bool
  saveInvoked : Bool
deriving Repr, DecidableEq

/-- No side effect has run. -/
def noEffects : Effects := ⟨false, false, false⟩

instance {ε α : Type} [DecidableEq ε] [DecidableEq α] :
    DecidableEq (Except ε α) := fun a b =>
  match a, b with
  | .error e, .error f => decidable_of_iff (e = f) (by simp)
  | .error _, .ok _ => isFalse (by simp)
  | .ok _, .error _ => isFalse (by simp)
  | .ok x, .ok y => decidable_of_iff (x = y) (by simp)

/-- Result and side-effect trace of one run. -/
structure RunOutcome where
  result : Except RunError Outputs
  effects : Effects
deriving Repr, DecidableEq

/-- Embeds `run` from `src/run.ts`: validate the version spec, derive the
platform, probe the cache, and on a miss acquire, save and report. -/
def run (env : Env) (version os arch : String) : RunOutcome :=
  if version = "" then
    ⟨.error (.inputError "version input is required and must be a string"), noEffects⟩
  else if version ≠ "latest" ∧ matchesSemver version = false then
    ⟨.error (.inputError
      "version must be \"latest\" or a valid semantic version (e.g., \"1.0.0\")"),
      noEffects⟩
  else
    let platform := getPlatformInfo os arch
    match restoreFromCache env platform with
    | some p => ⟨.ok (setOutputs env p), ⟨true, false, false⟩⟩
    | none =>
      match installNucelCLI env version platform with
      | .error msg => ⟨.error (.installError msg), ⟨true, true, false⟩⟩
      | .ok p => ⟨.ok (setOutputs env p), ⟨true, true, true⟩⟩

/-! ### The fuzzy-resolver variant of `run.ts`

The repository's second (unnamed) copy of `run.ts` replaces
`findBinaryInDir` by a resolver that first looks for the
version-and-platform-qualified archive name `nucel-cli-<os>-<arch>` at the
extraction root and then falls back to the first listed entry whose
basename contains the substring `nucel`. -/

/-- `fs.readdir(dir, { recursive: true })`: every entry of the tree
(files and directories), as paths relative to the root. -/
def listRecursive (pre : List String) : List Entry → List (List String)
  | [] => []
  | .file n _ :: rest => (pre ++ [n]) :: listRecursive pre rest
  | .dir n sub :: rest =>
      (pre ++ [n]) :: (listRecursive (pre ++ [n]) sub ++ listRecursive pre rest)

/-- JavaScript `hay.includes(needle)`: substring containment. -/
def containsSub : List Char → List Char → Bool
  | [], needle => needle.isEmpty
  | c :: t, needle => needle.isPrefixOf (c :: t) || containsSub t needle

/-- `path.basename` of a segment path. -/
def baseName (p : List String) : String := (p.getLast?).getD ""

/-- Embeds `findBinaryInDir` of the fuzzy variant: the expected qualified
filename `nucel-cli-<os>-<arch>` at the root (gated by `fileExists`), else
the first recursively-listed entry whose basename contains `nucel` and
passes `fileExists`; `null` when neither exists. -/
def findBinaryInDirFuzzy (tree : List Entry) (osStr archStr : String) :
    Option (List String) :=
  let expectedName := "nucel-cli-" ++ osStr ++ "-" ++ archStr
  if fileExists tree [expectedName] then some [expectedName]
  else
    (listRecursive [] tree).find? (fun item =>
      containsSub (baseName item).data "nucel".data && fileExists tree item)

/-- `installNucelCLI` of the fuzzy variant: as `installNucelCLI`, with the
fuzzy resolver (which performs its own `chmod`). -/
def installNucelCLIFuzzy (env : Env) (version : String) (p : PlatformInfo) :
    Except String (List String) :=
  if env.download (getDownloadUrl version p) = false then
    .error (wrapInstall ("Error: " ++ env.downloadErr))
  else if env.extractOk = false then
    .error (wrapInstall ("Error: " ++ env.extractErr))
  else
    match findBinaryInDirFuzzy env.extractTree p.platform p.arch with
    | none => .error (wrapInstall
        "Error: Nucel CLI binary not found in extracted directory: extracted")
    | some segs =>
        if verifyInstallation (env.exec ("extracted" :: segs)) then
          .ok ("extracted" :: segs)
        else
          .error (wrapInstall "Error: Nucel CLI installation verification failed")

/-- `run` of the fuzzy variant. -/
def runFuzzy (env : Env) (version os arch : String) : RunOutcome :=
  if version = "" then
    ⟨.error (.inputError "version input is required and must be a string"), noEffects⟩
  else if version ≠ "latest" ∧ matchesSemver version = false then
    ⟨.error (.inputError
      "version must be \"latest\" or a valid semantic version (e.g., \"1.0.0\")"),
      noEffects⟩
  else
    let platform := getPlatformInfo os arch
    match restoreFromCache env platform with
    | some p => ⟨.ok (setOutputs env p), ⟨true, false, false⟩⟩
    | none =>
      match installNucelCLIFuzzy env version platform with
      | .error msg => ⟨.error (.installError msg), ⟨true, true, false⟩⟩
      | .ok p => ⟨.ok (setOutputs env p), ⟨true, true, true⟩⟩

/-! ### Helper lemmas -/

theorem findInCommonDirs_eq_none (root : List Entry) (b : String) (ds : List String)
    (h : ∀ d ∈ ds, fileExists root [d, b] = false) :
    findInCommonDirs root b ds = none := by
  induction ds with
  | nil => rfl
  | cons d rest ih =>
      simp only [findInCommonDirs, h d (by simp)]
      exact ih (fun x hx => h x (by simp [hx]))

theorem findBinaryRecursive_getLast (l : List Entry) (pre : List String)
    (b : String) (segs : List String)
    (h : findBinaryRecursive l pre b = some segs) : segs.getLast? = some b := by
  induction l, pre, b using findBinaryRecursive.induct with
  | case1 x y => simp [findBinaryRecursive] at h
  | case2 e rest pre b =>
      simp only [findBinaryRecursive, if_pos rfl] at h
      cases h
      simp
  | case3 n e rest pre b hne ih =>
      simp only [findBinaryRecursive, if_neg hne] at h
      exact ih h
  | case4 n sub rest pre b r hr ih =>
      simp only [findBinaryRecursive, hr] at h
      cases h
      exact ih hr
  | case5 n sub rest pre b hr ih1 ih2 =>
      simp only [findBinaryRecursive, hr] at h
      exact ih2 h

/-! ### Claim theorems -/

/-- C1: for every directory root and expected binary name, `findBinaryInDir`
attempts exactly three layouts in priority order, stopping at the first
match: (1) the exact expected filename directly under the root; (2) the
expected filename under the conventional subdirectories `bin`, `cli`,
`nucel`, `nucel-cli`, in that order; (3) a full recursive descent of the
root matching the exact filename (the returned path always ends in that
filename); when no candidate exists it returns not-found (`none`).  The
embedding is a total function, so it never throws. -/
theorem findBinaryInDir_three_layouts (root : List Entry) (b : String) :
    (fileExists root [b] = true → findBinaryInDir root b = some [b]) ∧
    (∀ i : Fin commonDirs.length,
      fileExists root [b] = false →
      (∀ j : Fin commonDirs.length, j.1 < i.1 →
        fileExists root [commonDirs.get j, b] = false) →
      fileExists root [commonDirs.get i, b] = true →
      findBinaryInDir root b = some [commonDirs.get i, b]) ∧
    (fileExists root [b] = false →
      (∀ d ∈ commonDirs, fileExists root [d, b] = false) →
      findBinaryInDir root b = findBinaryRecursive root [] b ∧
      (treeHasFile root b = true → (findBinaryInDir root b).isSome = true) ∧
      (treeHasFile root b = false → findBinaryInDir root b = none)) ∧
    (∀ pre segs, findBinaryRecursive root pre b = some segs →
      segs.getLast? = some b) := by
  refine ⟨?_, ?_, ?_, fun pre segs => findBinaryRecursive_getLast root pre b segs⟩
  · intro h
    simp [findBinaryInDir, h]
  · intro i hroot hj hi
    fin_cases i
    · simp only [commonDirs, List.get] at hi ⊢
      simp [findBinaryInDir, hroot, findInCommonDirs, hi]
    · have h0 := hj ⟨0, by decide⟩ (by decide)
      simp only [commonDirs, List.get] at hi h0 ⊢
      simp [findBinaryInDir, hroot, findInCommonDirs, h0, hi]
    · have h0 := hj ⟨0, by decide⟩ (by decide)
      have h1 := hj ⟨1, by decide⟩ (by decide)
      simp only [commonDirs, List.get] at hi h0 h1 ⊢
      simp [findBinaryInDir, hroot, findInCommonDirs, h0, h1, hi]
    · have h0 := hj ⟨0, by decide⟩ (by decide)
      have h1 := hj ⟨1, by decide⟩ (by decide)
      have h2 := hj ⟨2, by decide⟩ (by decide)
      simp only [commonDirs, List.get] at hi h0 h1 h2 ⊢
      simp [findBinaryInDir, hroot, findInCommonDirs, h0, h1, h2, hi]
  · intro hroot hall
    have hnone := findInCommonDirs_eq_none root b commonDirs hall
    have heq : findBinaryInDir root b = findBinaryRecursive root [] b := by
      simp [findBinaryInDir, hroot, hnone]
    refine ⟨heq, ?_, ?_⟩
    · intro ht
      rw [heq]
      exact findBinaryRecursive_isSome_of_treeHasFile root [] b ht
    · intro ht
      rw [heq]
      exact findBinaryRecursive_eq_none_of_not_treeHasFile root [] b ht

/-- Witness for C1 at a concrete layout: the binary sits under the
conventional subdirectory `cli`, the root and the `bin` subdirectory have
no copy, and the resolver returns the `cli` path. -/
theorem findBinaryInDir_three_layouts_witness :
    findBinaryInDir [Entry.dir "cli" [Entry.file "nucel" true]] "nucel" =
      some ["cli", "nucel"] :=
  (findBinaryInDir_three_layouts [Entry.dir "cli" [Entry.file "nucel" true]]
    "nucel").2.1 ⟨1, by decide⟩ (by decide) (by decide) (by decide)

/-- Scenario A environment: cache miss, download and extraction succeed,
extraction yields the single executable file `nucel-cli-linux-x64` at the
archive root, and the version probe of that file exits 0 with stdout
`nucel-cli 1.0.0`. -/
def envA : Env :=
  { restoreHit := false
    cacheTree := []
    download := fun _ => true
    downloadErr := ""
    extractOk := true
    extractErr := ""
    extractTree := [.file "nucel-cli-linux-x64" true]
    exec := fun p =>
      if p = ["extracted", "nucel-cli-linux-x64"] then .exited 0 "nucel-cli 1.0.0"
      else .spawnError }

/-- C2: end-to-end with version `latest` on linux/x64, a cache miss, a
successful download, and extraction yielding the single file
`nucel-cli-linux-x64` at the archive root, the fuzzy-variant run succeeds
with output `cli-version = "1.0.0"` after a verify probe exiting 0 with
stdout `nucel-cli 1.0.0`.  The found basename contains the tool's short
name `nucel` (the fuzzy substring condition), and the canonical exact-name
resolver would not have found the file — it is the fuzzy fallback that
succeeds. -/
theorem runFuzzy_endToEnd_latest :
    runFuzzy envA "latest" "linux" "x64" =
      ⟨.ok ⟨"1.0.0", ["extracted", "nucel-cli-linux-x64"]⟩, ⟨true, true, true⟩⟩ ∧
    containsSub (baseName ["nucel-cli-linux-x64"]).data "nucel".data = true ∧
    findBinaryInDir [.file "nucel-cli-linux-x64" true] "nucel" = none := by
  refine ⟨?_, by decide, ?_⟩
  · simp [runFuzzy, restoreFromCache, installNucelCLIFuzzy, findBinaryInDirFuzzy,
      envA, fileExists, lookupEntry, entryName, setOutputs, extractVersionString,
      verifyInstallation, jsLastSpaceToken, jsTrim, splitOnPred, jsIsWhitespace,
      getDownloadUrl, getPlatformInfo, platformMap, jsRender, wrapInstall]
  · simp [findBinaryInDir, fileExists, lookupEntry, entryName, findInCommonDirs,
      commonDirs, findBinaryRecursive]

theorem installNucelCLI_ok_shape (env : Env) (version : String)
    (p : PlatformInfo) (q : List String)
    (h : installNucelCLI env version p = .ok q) :
    ∃ segs, q = "extracted" :: segs := by
  unfold installNucelCLI at h
  split at h
  · cases h
  · split at h
    · cases h
    · split at h
      · cases h
      · split at h
        · cases h
          exact ⟨_, rfl⟩
        · cases h

theorem findBinaryInCache_some_shape (tree : List Entry) (p : PlatformInfo)
    (q : List String) (h : findBinaryInCache tree p = some q) :
    ∃ b, p.binaryName = some b ∧ q = ["nucel-cache", b] := by
  cases hb : p.binaryName with
  | none => simp [findBinaryInCache, hb] at h
  | some b =>
      simp only [findBinaryInCache, hb] at h
      by_cases hf : fileExists tree [b] = true
      · rw [if_pos hf] at h
        cases h
        exact ⟨b, rfl, rfl⟩
      · rw [if_neg hf] at h
        cases h

/-- C3: the acquisition path executes if and only if the cache probe fails
to yield a verified binary: on a verified cache hit the run reports it and
no download occurs; when the transport restored the key but the staged
binary fails verification, the run falls through to acquisition, and any
binary it then reports is the freshly acquired one, never the rejected
cached path. -/
theorem run_cache_shortcircuit (env : Env) (version os arch : String)
    (hv : version = "latest" ∨ matchesSemver version = true) :
    ((run env version os arch).effects.downloadInvoked = true ↔
      restoreFromCache env (getPlatformInfo os arch) = none) ∧
    (∀ p, restoreFromCache env (getPlatformInfo os arch) = some p →
      run env version os arch = ⟨.ok (setOutputs env p), ⟨true, false, false⟩⟩) ∧
    (∀ q, env.restoreHit = true →
      findBinaryInCache env.cacheTree (getPlatformInfo os arch) = some q →
      verifyInstallation (env.exec q) = false →
      (run env version os arch).effects.downloadInvoked = true ∧
      ∀ o, (run env version os arch).result = .ok o → o.cliPath ≠ q) := by
  have hne : version ≠ "" := by
    rcases hv with rfl | hv
    · decide
    · intro h
      rw [h] at hv
      exact absurd hv (by decide)
  have hvalid : ¬(version ≠ "latest" ∧ matchesSemver version = false) := by
    rcases hv with rfl | hv
    · simp
    · simp [hv]
  have hrun : run env version os arch =
      (match restoreFromCache env (getPlatformInfo os arch) with
      | some p => ⟨.ok (setOutputs env p), ⟨true, false, false⟩⟩
      | none =>
        match installNucelCLI env version (getPlatformInfo os arch) with
        | .error msg => ⟨.error (.installError msg), ⟨true, true, false⟩⟩
        | .ok p => ⟨.ok (setOutputs env p), ⟨true, true, true⟩⟩) := by
    simp [run, hne, hvalid]
  refine ⟨?_, ?_, ?_⟩
  · rw [hrun]
    cases hres : restoreFromCache env (getPlatformInfo os arch) with
    | some p => simp
    | none =>
        cases hins : installNucelCLI env version (getPlatformInfo os arch) with
        | error m => simp
        | ok p => simp
  · intro p hp
    rw [hrun, hp]
  · intro q hhit hfind hver
    have hres : restoreFromCache env (getPlatformInfo os arch) = none := by
      simp [restoreFromCache, hhit, hfind, hver]
    rw [hrun, hres]
    obtain ⟨b, -, hq⟩ := findBinaryInCache_some_shape _ _ _ hfind
    cases hins : installNucelCLI env version (getPlatformInfo os arch) with
    | error m => simp
    | ok p =>
        refine ⟨by simp, ?_⟩
        intro o ho
        obtain ⟨segs, rfl⟩ := installNucelCLI_ok_shape _ _ _ _ hins
        have hexp : setOutputs env ("extracted" :: segs) = o := by
          simpa using ho
        rw [← hexp, hq]
        simp [setOutputs]

/-- Environment for the C3 witness: a valid cache hit whose staged binary
verifies, so the run must short-circuit. -/
def envCacheHit : Env :=
  { restoreHit := true
    cacheTree := [.file "nucel" true]
    download := fun _ => true
    downloadErr := ""
    extractOk := true
    extractErr := ""
    extractTree := []
    exec := fun p =>
      if p = ["nucel-cache", "nucel"] then .exited 0 "nucel-cli 1.0.0"
      else .spawnError }

/-- Witness for C3: on a verified cache hit the run reports the cached
binary and the download side effect never runs. -/
theorem run_cache_shortcircuit_witness :
    run envCacheHit "latest" "linux" "x64" =
      ⟨.ok (setOutputs envCacheHit ["nucel-cache", "nucel"]), ⟨true, false, false⟩⟩ :=
  (run_cache_shortcircuit envCacheHit "latest" "linux" "x64" (Or.inl rfl)).2.1
    ["nucel-cache", "nucel"] (by decide)

/-- C4: `run`'s version validation accepts exactly the literal `latest`
and strings of the shape `MAJOR.MINOR.PATCH` with an optional
`-PRERELEASE` suffix (the matcher agrees with that shape on every string);
every other string — including the empty string, the source's stand-in for
a missing version input — is rejected with an input error while the
side-effect trace is still empty, i.e. before any network, cache, or
filesystem call. -/
theorem run_version_validation (env : Env) (version os arch : String) :
    (matchesSemver version = true ↔ SemverShape version) ∧
    (¬(version = "latest" ∨ SemverShape version) →
      ∃ msg, run env version os arch = ⟨.error (.inputError msg), noEffects⟩) ∧
    ((version = "latest" ∨ SemverShape version) →
      ∀ msg, (run env version os arch).result ≠ .error (.inputError msg)) := by
  refine ⟨matchesSemver_iff_SemverShape version, ?_, ?_⟩
  · intro h
    by_cases h0 : version = ""
    · exact ⟨"version input is required and must be a string", by simp [run, h0]⟩
    · have h1 : version ≠ "latest" := fun hl => h (Or.inl hl)
      have h2 : matchesSemver version = false := by
        cases hm : matchesSemver version with
        | false => rfl
        | true =>
            exact absurd (Or.inr ((matchesSemver_iff_SemverShape version).mp hm)) h
      refine ⟨"version must be \"latest\" or a valid semantic version (e.g., \"1.0.0\")", ?_⟩
      simp [run, h0, h1, h2]
  · intro hv msg
    have hne : version ≠ "" := by
      rcases hv with rfl | hv
      · decide
      · intro h0
        rw [h0] at hv
        exact absurd ((matchesSemver_iff_SemverShape "").mpr hv) (by decide)
    have hvalid : ¬(version ≠ "latest" ∧ matchesSemver version = false) := by
      rcases hv with rfl | hv
      · simp
      · simp [(matchesSemver_iff_SemverShape version).mpr hv]
    simp only [run, if_neg hne, if_neg hvalid]
    cases restoreFromCache env (getPlatformInfo os arch) with
    | some p => simp
    | none =>
        cases installNucelCLI env version (getPlatformInfo os arch) with
        | error m => simp
        | ok p => simp

/-- Environment for the C4 witness (its oracles are never consulted,
because validation rejects first). -/
def envIdle : Env :=
  { restoreHit := false
    cacheTree := []
    download := fun _ => false
    downloadErr := ""
    extractOk := false
    extractErr := ""
    extractTree := []
    exec := fun _ => .spawnError }

/-- Witness for C4: the string `not-a-version` is rejected with an input
error and an empty side-effect trace. -/
theorem run_version_validation_witness :
    ∃ msg, run envIdle "not-a-version" "linux" "x64" =
      ⟨.error (.inputError msg), noEffects⟩ :=
  (run_version_validation envIdle "not-a-version" "linux" "x64").2.1
    (by
      rintro (h | h)
      · exact absurd h (by decide)
      · exact absurd
          ((run_version_validation envIdle "not-a-version" "linux" "x64").1.mpr h)
          (by decide))

/-- C5 (amended): `getPlatformInfo` maps exactly three operating systems to
fixed archive extensions and executable names — linux and darwin to
`.tar.gz` and the bare name `nucel`, windows to `.zip` and `nucel.exe` —
but for any other OS value it returns a `PlatformInfo` with both fields
absent (the object spread of `undefined` is a no-op) and the run proceeds
to the cache probe and acquisition rather than failing fast. -/
theorem getPlatformInfo_mapping (arch : String) :
    getPlatformInfo "linux" arch = ⟨"linux", arch, some ".tar.gz", some "nucel"⟩ ∧
    getPlatformInfo "darwin" arch = ⟨"darwin", arch, some ".tar.gz", some "nucel"⟩ ∧
    getPlatformInfo "win32" arch = ⟨"win32", arch, some ".zip", some "nucel.exe"⟩ ∧
    (∀ os, os ≠ "linux" → os ≠ "darwin" → os ≠ "win32" →
      getPlatformInfo os arch = ⟨os, arch, none, none⟩) ∧
    (∀ env version os, (version = "latest" ∨ matchesSemver version = true) →
      env.restoreHit = false →
      (run env version os arch).effects.restoreInvoked = true ∧
      (run env version os arch).effects.downloadInvoked = true) := by
  refine ⟨rfl, rfl, rfl, ?_, ?_⟩
  · intro os h1 h2 h3
    simp [getPlatformInfo, platformMap, h1, h2, h3]
  · intro env version os hv hmiss
    have hres : restoreFromCache env (getPlatformInfo os arch) = none := by
      simp [restoreFromCache, hmiss]
    have h := run_cache_shortcircuit env version os arch hv
    have hdl := h.1.mpr hres
    refine ⟨?_, hdl⟩
    have hne : version ≠ "" := by
      rcases hv with rfl | hv
      · decide
      · intro h0
        rw [h0] at hv
        exact absurd hv (by decide)
    have hvalid : ¬(version ≠ "latest" ∧ matchesSemver version = false) := by
      rcases hv with rfl | hv
      · simp
      · simp [hv]
    simp only [run, if_neg hne, if_neg hvalid, hres]
    cases installNucelCLI env version (getPlatformInfo os arch) with
    | error m => simp
    | ok p => simp

/-- Witness for C5's amended statement: the unknown OS `freebsd` yields a
`PlatformInfo` with no extension and no binary name. -/
theorem getPlatformInfo_mapping_witness :
    getPlatformInfo "freebsd" "x64" = ⟨"freebsd", "x64", none, none⟩ :=
  (getPlatformInfo_mapping "x64").2.2.2.1 "freebsd" (by decide) (by decide)
    (by decide)

/-- Environment for the C5 counterexample: cache miss and failing download
transport, so the run's progress past the platform stage is observable. -/
def envUnsupported : Env :=
  { restoreHit := false
    cacheTree := []
    download := fun _ => false
    downloadErr := "Download failed"
    extractOk := false
    extractErr := ""
    extractTree := []
    exec := fun _ => .spawnError }

/-- C5 counterexample: on the unsupported OS `freebsd` the run does not
fail fast with a configuration error — `getPlatformInfo` returns with both
fields absent, the download URL is computed with the literal text
`undefined` in place of the extension, and the run proceeds all the way to
the download attempt. -/
theorem getPlatformInfo_no_failFast_counterexample :
    getPlatformInfo "freebsd" "x64" = ⟨"freebsd", "x64", none, none⟩ ∧
    getDownloadUrl "1.0.0" (getPlatformInfo "freebsd" "x64") =
      "https://github.com/nucel-cloud/nucel/releases/download/cli-v1.0.0/nucel-cli-freebsd-x64undefined" ∧
    (run envUnsupported "1.0.0" "freebsd" "x64").effects.restoreInvoked = true ∧
    (run envUnsupported "1.0.0" "freebsd" "x64").effects.downloadInvoked = true ∧
    (run envUnsupported "1.0.0" "freebsd" "x64").result =
      .error (.installError "Failed to install Nucel CLI: Error: Download failed") := by
  refine ⟨rfl, rfl, ?_, ?_, ?_⟩ <;>
    simp [run, restoreFromCache, installNucelCLI, envUnsupported, noEffects,
      wrapInstall, matchesSemver, munch1, expectDot, semverTail]

/-- C6: `verifyInstallation` returns `true` exactly when the probe process
exited with status 0; a spawn failure does not throw (the embedding is
total) but collapses to `false`. -/
theorem verifyInstallation_exitZero (o : ExecOutcome) :
    (verifyInstallation o = true ↔ ∃ out, o = .exited 0 out) ∧
    verifyInstallation .spawnError = false := by
  refine ⟨?_, rfl⟩
  cases o with
  | spawnError => simp [verifyInstallation]
  | exited code out =>
      constructor
      · intro h
        have hc : code = 0 := by simpa [verifyInstallation] using h
        exact ⟨out, by rw [hc]⟩
      · rintro ⟨o2, ho⟩
        cases ho
        rfl

/-- Witness for C6: a probe exiting 0 verifies. -/
theorem verifyInstallation_exitZero_witness :
    verifyInstallation (.exited 0 "nucel-cli 1.0.0") = true :=
  (verifyInstallation_exitZero _).1.mpr ⟨"nucel-cli 1.0.0", rfl⟩

/-- C7 (amended): when a binary is resolved after acquisition but fails the
version-probe verification gate, the run aborts — but the verification
throw sits inside the same `try` block as the acquisition steps, so the
`catch` wraps it under the very prefix `Failed to install Nucel CLI:` that
also wraps download, extraction and executable-not-found failures; only the
inner message `Nucel CLI installation verification failed` distinguishes
the two in logs. -/
theorem run_verification_failure_wrapped (env : Env) (version os arch : String)
    (hv : version = "latest" ∨ matchesSemver version = true)
    (hmiss : restoreFromCache env (getPlatformInfo os arch) = none)
    (hdl : env.download (getDownloadUrl version (getPlatformInfo os arch)) = true)
    (hex : env.extractOk = true)
    (b : String) (hb : (getPlatformInfo os arch).binaryName = some b)
    (segs : List String)
    (hfind : findBinaryInDir env.extractTree b = some segs)
    (hver : verifyInstallation (env.exec ("extracted" :: segs)) = false) :
    run env version os arch =
      ⟨.error (.installError (wrapInstall
        "Error: Nucel CLI installation verification failed")),
        ⟨true, true, false⟩⟩ := by
  have hne : version ≠ "" := by
    rcases hv with rfl | hv
    · decide
    · intro h0
      rw [h0] at hv
      exact absurd hv (by decide)
  have hvalid : ¬(version ≠ "latest" ∧ matchesSemver version = false) := by
    rcases hv with rfl | hv
    · simp
    · simp [hv]
  have hins : installNucelCLI env version (getPlatformInfo os arch) =
      .error (wrapInstall "Error: Nucel CLI installation verification failed") := by
    simp [installNucelCLI, hdl, hex, hb, hfind, hver]
  simp [run, if_neg hne, if_neg hvalid, hmiss, hins]

/-- Environment for C7: acquisition succeeds, the resolver finds the binary
at the extraction root, but its version probe exits 1. -/
def envVerifyFail : Env :=
  { restoreHit := false
    cacheTree := []
    download := fun _ => true
    downloadErr := ""
    extractOk := true
    extractErr := ""
    extractTree := [.file "nucel" true]
    exec := fun p => if p = ["extracted", "nucel"] then .exited 1 "" else .spawnError }

/-- C7 counterexample: in a run whose freshly acquired binary fails the
verification gate, the reported error message does carry the
`Failed to install Nucel CLI:` prefix reserved by the claim for
acquisition failures — the verification failure is not kept outside that
prefix. -/
theorem run_verification_wrapped_counterexample :
    run envVerifyFail "latest" "linux" "x64" =
      ⟨.error (.installError
        "Failed to install Nucel CLI: Error: Nucel CLI installation verification failed"),
        ⟨true, true, false⟩⟩ ∧
    "Failed to install Nucel CLI: ".data.isPrefixOf
      "Failed to install Nucel CLI: Error: Nucel CLI installation verification failed".data
      = true := by
  refine ⟨?_, by decide⟩
  simp [run, restoreFromCache, installNucelCLI, envVerifyFail, wrapInstall,
    findBinaryInDir, fileExists, lookupEntry, entryName, verifyInstallation,
    getPlatformInfo, platformMap]

/-- Witness for C7's amended statement, at the same concrete environment:
the hypotheses of `run_verification_failure_wrapped` hold and give the
wrapped message. -/
theorem run_verification_failure_wrapped_witness :
    run envVerifyFail "latest" "linux" "x64" =
      ⟨.error (.installError (wrapInstall
        "Error: Nucel CLI installation verification failed")),
        ⟨true, true, false⟩⟩ :=
  run_verification_failure_wrapped envVerifyFail "latest" "linux" "x64"
    (Or.inl rfl) (by decide) rfl rfl "nucel" rfl ["nucel"]
    (by simp [findBinaryInDir, fileExists, lookupEntry, entryName, envVerifyFail])
    (by decide)

theorem splitOnPred_ne_nil (p : Char → Bool) (l : List Char) :
    splitOnPred p l ≠ [] := by
  induction l with
  | nil => simp [splitOnPred]
  | cons c cs ih =>
      by_cases h : p c = true
      · simp [splitOnPred, h]
      · simp only [splitOnPred, h, if_false, Bool.false_eq_true]
        cases hs : splitOnPred p cs with
        | nil => simp
        | cons t ts => simp

theorem splitOnPred_all_neg (p : Char → Bool) (l : List Char)
    (h : ∀ x ∈ l, p x = false) : splitOnPred p l = [l] := by
  induction l with
  | nil => rfl
  | cons c cs ih =>
      have hc : p c = false := h c (by simp)
      have ih2 := ih (fun x hx => h x (by simp [hx]))
      simp [splitOnPred, hc, ih2]

theorem splitOnPred_length_ge_two (p : Char → Bool) (a b : List Char) (c : Char)
    (hc : p c = true) : 2 ≤ (splitOnPred p (a ++ c :: b)).length := by
  induction a with
  | nil =>
      simp only [List.nil_append, splitOnPred, hc, if_pos]
      cases hs : splitOnPred p b with
      | nil => exact absurd hs (splitOnPred_ne_nil p b)
      | cons t ts => simp
  | cons x a' ih =>
      by_cases hx : p x = true
      · simp only [List.cons_append, splitOnPred, hx, if_pos]
        simpa using Nat.le_succ_of_le ih
      · simp only [List.cons_append, splitOnPred, hx, if_false, Bool.false_eq_true]
        cases hs : splitOnPred p (a' ++ c :: b) with
        | nil => exact absurd hs (splitOnPred_ne_nil p _)
        | cons t ts =>
            rw [hs] at ih
            simpa using ih

theorem splitOnPred_getLast_sep (p : Char → Bool) (a b : List Char) (c : Char)
    (hc : p c = true) :
    (splitOnPred p (a ++ c :: b)).getLast? = (splitOnPred p b).getLast? := by
  induction a with
  | nil =>
      simp only [List.nil_append, splitOnPred, hc, if_pos]
      cases hs : splitOnPred p b with
      | nil => exact absurd hs (splitOnPred_ne_nil p b)
      | cons t ts => simp [List.getLast?_cons_cons]
  | cons x a' ih =>
      by_cases hx : p x = true
      · simp only [List.cons_append, splitOnPred, hx, if_pos]
        cases hs : splitOnPred p (a' ++ c :: b) with
        | nil => exact absurd hs (splitOnPred_ne_nil p _)
        | cons t ts =>
            rw [hs] at ih
            rw [← ih]
            simp [List.getLast?_cons_cons]
      · simp only [List.cons_append, splitOnPred, hx, if_false, Bool.false_eq_true]
        cases hs : splitOnPred p (a' ++ c :: b) with
        | nil => exact absurd hs (splitOnPred_ne_nil p _)
        | cons t ts =>
            have hlen := splitOnPred_length_ge_two p a' b c hc
            rw [hs] at hlen ih
            cases ts with
            | nil => simp at hlen
            | cons u us =>
                rw [← ih]
                simp [List.getLast?_cons_cons]

theorem stringMk_eq_empty_iff (l : List Char) : String.mk l = "" ↔ l = [] := by
  constructor
  · intro h
    have hd := congrArg String.data h
    simpa using hd
  · rintro rfl
    rfl

/-- C8 (amended): for every resolved executable path, the reporter
(`setOutputs`) reports that path, runs the version probe, and when it exits
0 reports the last token of the *trimmed* stdout after splitting on the
single space character U+0020 (not on arbitrary whitespace) as the
`cli-version` output; on a spawn failure, a non-zero exit, or an empty
token it reports the literal `unknown` instead; the embedding is a total
function, so it never raises. -/
theorem setOutputs_last_space_token (env : Env) (q : List String) :
    ((setOutputs env q).cliPath = q) ∧
    (env.exec q = .spawnError → (setOutputs env q).cliVersion = "unknown") ∧
    (∀ c out, env.exec q = .exited c out → c ≠ 0 →
      (setOutputs env q).cliVersion = "unknown") ∧
    (∀ out, env.exec q = .exited 0 out → jsTrim out.data = [] →
      (setOutputs env q).cliVersion = "unknown") ∧
    (∀ out, env.exec q = .exited 0 out → jsTrim out.data ≠ [] →
      (∀ x ∈ jsTrim out.data, x ≠ ' ') →
      (setOutputs env q).cliVersion = String.mk (jsTrim out.data)) ∧
    (∀ out a tok, env.exec q = .exited 0 out →
      jsTrim out.data = a ++ ' ' :: tok → tok ≠ [] → (∀ x ∈ tok, x ≠ ' ') →
      (setOutputs env q).cliVersion = String.mk tok) := by
  refine ⟨rfl, ?_, ?_, ?_, ?_, ?_⟩
  · intro h
    simp [setOutputs, h, extractVersionString]
  · intro c out h hc
    simp [setOutputs, h, extractVersionString, hc]
  · intro out h htrim
    simp [setOutputs, h, extractVersionString, jsLastSpaceToken, htrim, splitOnPred]
  · intro out h htrim hnospace
    have hsplit : splitOnPred (fun c => c = ' ') (jsTrim out.data) = [jsTrim out.data] :=
      splitOnPred_all_neg _ _ (fun x hx => by simp [hnospace x hx])
    have hne : ¬(String.mk (jsTrim out.data) = "") := by
      rw [stringMk_eq_empty_iff]
      exact htrim
    simp [setOutputs, h, extractVersionString, jsLastSpaceToken, hsplit, hne]
  · intro out a tok h htrim htok hnospace
    have hlast : (splitOnPred (fun c => c = ' ') (jsTrim out.data)).getLast? =
        some tok := by
      rw [htrim, splitOnPred_getLast_sep _ a tok ' ' (by simp),
        splitOnPred_all_neg _ _ (fun x hx => by simp [hnospace x hx])]
      rfl
    have hne : ¬(String.mk tok = "") := by
      rw [stringMk_eq_empty_iff]
      exact htok
    simp [setOutputs, h, extractVersionString, jsLastSpaceToken, hlast, hne]

/-- Environment for C8: the probe's stdout separates the name from the
version with a tab, not a space. -/
def envTab : Env :=
  { restoreHit := false
    cacheTree := []
    download := fun _ => true
    downloadErr := ""
    extractOk := true
    extractErr := ""
    extractTree := []
    exec := fun _ => .exited 0 "nucel-cli\t1.0.0" }

/-- C8 counterexample: on the probe output `nucel-cli<TAB>1.0.0` (exit 0)
the last whitespace-delimited token is `1.0.0`, but the reporter splits on
the space character only and reports the whole line — it does not report
the last whitespace-delimited token of stdout. -/
theorem setOutputs_whitespace_counterexample :
    (setOutputs envTab ["extracted", "nucel"]).cliVersion = "nucel-cli\t1.0.0" ∧
    lastWhitespaceToken "nucel-cli\t1.0.0" = "1.0.0" ∧
    (setOutputs envTab ["extracted", "nucel"]).cliVersion ≠
      lastWhitespaceToken "nucel-cli\t1.0.0" := by
  refine ⟨by decide, by decide, by decide⟩

/-- Witness for C8's amended statement: probe stdout `nucel-cli 1.0.0`
(exit 0) reports version `1.0.0`. -/
theorem setOutputs_last_space_token_witness :
    (setOutputs envA ["extracted", "nucel-cli-linux-x64"]).cliVersion =
      String.mk ['1', '.', '0', '.', '0'] :=
  (setOutputs_last_space_token envA ["extracted", "nucel-cli-linux-x64"]).2.2.2.2.2
    "nucel-cli 1.0.0" "nucel-cli".data ['1', '.', '0', '.', '0']
    (by decide) (by decide) (by decide) (by decide)

/-- C9: for every valid version spec and supported platform, the download
URL is `https://github.com/nucel-cloud/nucel/releases/download/` followed
by the version tag, a slash, and `nucel-cli-<os>-<arch><ext>`, where the
tag is the pinned fallback release tag `cli-v0.1.9` when the version is
`latest` (a fixed historical tag, not a dynamic lookup) and
`cli-v<version>` otherwise. -/
theorem getDownloadUrl_shape (version os arch : String)
    (hos : os = "linux" ∨ os = "darwin" ∨ os = "win32")
    (hv : version = "latest" ∨ SemverShape version) :
    ∃ tag ext, (getPlatformInfo os arch).ext = some ext ∧
      getDownloadUrl version (getPlatformInfo os arch) =
        "https://github.com/nucel-cloud/nucel/releases/download/" ++ tag ++ "/" ++
          ("nucel-cli-" ++ os ++ "-" ++ arch ++ ext) ∧
      (version = "latest" → tag = "cli-v0.1.9") ∧
      (version ≠ "latest" → tag = "cli-v" ++ version) := by
  have hurl : ∀ ext b, platformMap os = some (ext, b) →
      getDownloadUrl version (getPlatformInfo os arch) =
        "https://github.com/nucel-cloud/nucel/releases/download/" ++
          (if version = "latest" then "cli-v0.1.9" else "cli-v" ++ version) ++ "/" ++
          ("nucel-cli-" ++ os ++ "-" ++ arch ++ ext) := by
    intro ext b hm
    by_cases hl : version = "latest"
    · simp only [getDownloadUrl, getPlatformInfo, hm, jsRender, if_pos hl]
      rfl
    · simp only [getDownloadUrl, getPlatformInfo, hm, jsRender, if_neg hl]
      rfl
  refine ⟨if version = "latest" then "cli-v0.1.9" else "cli-v" ++ version, ?_⟩
  rcases hos with rfl | rfl | rfl
  · exact ⟨".tar.gz", by simp [getPlatformInfo, platformMap],
      hurl ".tar.gz" "nucel" rfl,
      fun h => by simp [h], fun h => by simp [h]⟩
  · exact ⟨".tar.gz", by simp [getPlatformInfo, platformMap],
      hurl ".tar.gz" "nucel" rfl,
      fun h => by simp [h], fun h => by simp [h]⟩
  · exact ⟨".zip", by simp [getPlatformInfo, platformMap],
      hurl ".zip" "nucel.exe" rfl,
      fun h => by simp [h], fun h => by simp [h]⟩

/-- Witness for C9: version `latest` on linux/x64 yields the pinned URL. -/
theorem getDownloadUrl_shape_witness :
    ∃ tag ext, (getPlatformInfo "linux" "x64").ext = some ext ∧
      getDownloadUrl "latest" (getPlatformInfo "linux" "x64") =
        "https://github.com/nucel-cloud/nucel/releases/download/" ++ tag ++ "/" ++
          ("nucel-cli-" ++ "linux" ++ "-" ++ "x64" ++ ext) ∧
      ("latest" = "latest" → tag = "cli-v0.1.9") ∧
      ("latest" ≠ "latest" → tag = "cli-v" ++ "latest") :=
  getDownloadUrl_shape "latest" "linux" "x64" (Or.inl rfl) (Or.inl rfl)

/-- C10: `saveToCache` stages the binary under its original basename with
the source file's mode, while a restored entry is accepted only when a file
named exactly the platform's `binaryName` passes the `F_OK | X_OK` probe
directly at the staging root; hence for every saved executable whose
basename differs from the platform binary name, or whose staged copy lacks
the execute bit, every subsequent restore of the entry is a cache miss. -/
theorem saveToCache_restore_miss (savedBase : String) (ex : Bool)
    (p : PlatformInfo) (b : String) (hb : p.binaryName = some b)
    (h : savedBase ≠ b ∨ ex = false) :
    (∀ tree, (findBinaryInCache tree p).isSome = fileExists tree [b]) ∧
    findBinaryInCache (saveToCache savedBase ex) p = none ∧
    (∀ env : Env, env.cacheTree = saveToCache savedBase ex →
      restoreFromCache env p = none) := by
  have hmiss : findBinaryInCache (saveToCache savedBase ex) p = none := by
    have hfe : fileExists (saveToCache savedBase ex) [b] = false := by
      rcases h with h | h
      · simp [saveToCache, fileExists, lookupEntry, entryName, h]
      · subst h
        by_cases hsb : savedBase = b
        · simp [saveToCache, fileExists, lookupEntry, entryName, hsb]
        · simp [saveToCache, fileExists, lookupEntry, entryName, hsb]
    simp [findBinaryInCache, hb, hfe]
  refine ⟨?_, hmiss, ?_⟩
  · intro tree
    by_cases hf : fileExists tree [b] = true
    · simp [findBinaryInCache, hb, hf]
    · simp [findBinaryInCache, hb, hf, Bool.eq_false_iff.mpr hf]
  · intro env henv
    simp [restoreFromCache, henv, hmiss]

/-- Witness for C10 at the scenario-A basename: the acquired binary
`nucel-cli-linux-x64` is staged under that name, which differs from the
platform binary name `nucel`, so the entry can never be restored. -/
theorem saveToCache_restore_miss_witness :
    findBinaryInCache (saveToCache "nucel-cli-linux-x64" true)
      (getPlatformInfo "linux" "x64") = none :=
  (saveToCache_restore_miss "nucel-cli-linux-x64" true
    (getPlatformInfo "linux" "x64") "nucel" rfl (Or.inl (by decide))).2.1

end SetupNucel
